import Mathlib

/-!
# Verification of the symbol-crypto-core cryptographic layer

A shallow embedding of the repository's cryptographic composition layer:
EdDSA signing and verification in the two network variants (Symbol, "Variant A",
using a standard 512-bit digest, and NIS1, "Variant B", using a Keccak-style
digest and a byte-reversed secret seed), Diffie-Hellman shared-secret
derivation, the two key-derivation functions, and the two authenticated
ciphers (AES-256-CBC with PKCS#7 padding for NIS1, AES-256-GCM for Symbol).

Byte strings are `List Nat` with each byte below 256.  The external
elliptic-curve primitive library is modelled by its algebra on the prime-order
subgroup generated by the basepoint: a point `s * Basepoint` is represented by
the natural number `s % L`, where `L` is the order of the basepoint.  Digest
functions (SHA-512, Keccak-512, Keccak-256, HKDF) and the raw AES primitives
are parameters of the definitions, constrained only by the contracts the
external crates guarantee (output lengths, block-cipher invertibility).
All repository-level functions are translated from the Rust source.
-/

set_option autoImplicit false

/-- Byte strings: lists of naturals, each intended to be `< 256`. -/
abbrev Bytes := List Nat

/-- Little-endian interpretation of a byte string as a natural number. -/
def bytesToNat : Bytes → Nat
  | [] => 0
  | b :: rest => b + 256 * bytesToNat rest

/-- Little-endian encoding of a natural number into `len` bytes. -/
def natToBytes : Nat → Nat → Bytes
  | 0, _ => []
  | len + 1, n => n % 256 :: natToBytes len (n / 256)

/-- The byte at index `i` (0 when out of range); models `bytes[i]` on `[u8; N]`. -/
def byteAt (bs : Bytes) (i : Nat) : Nat := (bs.drop i).headD 0

/-- Every element of a byte string is an actual byte. -/
def ValidBytes (bs : Bytes) : Prop := ∀ b ∈ bs, b < 256

instance (bs : Bytes) : Decidable (ValidBytes bs) :=
  inferInstanceAs (Decidable (∀ b ∈ bs, b < 256))

/-- Byte-wise XOR of two byte strings (truncating to the shorter). -/
def xorBytes (a b : Bytes) : Bytes := List.zipWith (· ^^^ ·) a b

theorem natToBytes_length (len n : Nat) : (natToBytes len n).length = len := by
  induction len generalizing n with
  | zero => rfl
  | succ k ih => simp [natToBytes, ih]

theorem natToBytes_valid (len n : Nat) : ValidBytes (natToBytes len n) := by
  induction len generalizing n with
  | zero => intro b hb; simp [natToBytes] at hb
  | succ k ih =>
    intro b hb
    simp only [natToBytes, List.mem_cons] at hb
    rcases hb with h | h
    · exact h ▸ Nat.mod_lt _ (by norm_num)
    · exact ih (n / 256) b h

theorem bytesToNat_natToBytes (len n : Nat) (h : n < 256 ^ len) :
    bytesToNat (natToBytes len n) = n := by
  induction len generalizing n with
  | zero => simp [natToBytes, bytesToNat]; omega
  | succ k ih =>
    have hdiv : n / 256 < 256 ^ k := by
      rw [Nat.div_lt_iff_lt_mul (by norm_num)]
      calc n < 256 ^ (k + 1) := h
        _ = 256 ^ k * 256 := by ring
    simp [natToBytes, bytesToNat, ih (n / 256) hdiv]
    omega

theorem bytesToNat_lt (bs : Bytes) (h : ValidBytes bs) :
    bytesToNat bs < 256 ^ bs.length := by
  induction bs with
  | nil => simp [bytesToNat]
  | cons b rest ih =>
    have hb : b < 256 := h b (List.mem_cons_self _ _)
    have hr := ih (fun x hx => h x (List.mem_cons_of_mem _ hx))
    simp only [bytesToNat, List.length_cons, pow_succ]
    calc b + 256 * bytesToNat rest < 256 + 256 * bytesToNat rest := by omega
      _ ≤ 256 * (bytesToNat rest + 1) := by ring_nf; omega
      _ ≤ 256 * 256 ^ rest.length := by
          have : bytesToNat rest + 1 ≤ 256 ^ rest.length := hr
          exact Nat.mul_le_mul_left _ this
      _ = 256 ^ rest.length * 256 := by ring

theorem bytesToNat_append (a b : Bytes) :
    bytesToNat (a ++ b) = bytesToNat a + 256 ^ a.length * bytesToNat b := by
  induction a with
  | nil => simp [bytesToNat]
  | cons x rest ih =>
    show bytesToNat (x :: (rest ++ b)) = _
    simp only [bytesToNat, ih, List.length_cons, pow_succ]
    ring

theorem byteAt_valid (bs : Bytes) (h : ValidBytes bs) (i : Nat) : byteAt bs i < 256 := by
  unfold byteAt
  cases hd : bs.drop i with
  | nil => simp [List.headD]
  | cons x rest =>
    have hx : x ∈ bs := by
      have : x ∈ bs.drop i := by rw [hd]; exact List.mem_cons_self _ _
      exact List.mem_of_mem_drop this
    simp [List.headD, h x hx]

/-! ## Model of the external edwards25519 primitives

The prime-order subgroup generated by the basepoint is cyclic of order `L`;
a point `s * Basepoint` is represented by `s % L`.  `compress` encodes a point
as 32 little-endian bytes, `decompress` recovers it.  Encodings whose integer
value is not the representative of a subgroup point fail to decompress,
modelling compressed encodings that are not valid curve points. -/

/-- The order of the ed25519 basepoint. -/
def L : Nat := 2 ^ 252 + 27742317777372353535851937790883648493

/-- `s * Basepoint` in the subgroup model. -/
def pointMulBase (s : Nat) : Nat := s % L

/-- Scalar multiplication of a point. -/
def pointMul (s p : Nat) : Nat := s * p % L

/-- Point addition. -/
def pointAdd (p q : Nat) : Nat := (p + q) % L

/-- Point negation. -/
def pointNeg (p : Nat) : Nat := (L - p % L) % L

/-- Compressed Edwards encoding of a subgroup point (32 bytes, little-endian). -/
def compress (p : Nat) : Bytes := natToBytes 32 (p % L)

/-- Decompression of a 32-byte encoding; fails on encodings that are not
valid points of the model. -/
def decompress (bs : Bytes) : Option Nat :=
  if bs.length = 32 ∧ bytesToNat bs < L then some (bytesToNat bs) else none

/-- `Scalar::from_bits`: interpret 32 bytes as a little-endian integer,
keeping only the low 255 bits (dalek masks the top bit of byte 31). -/
def scalarFromBits (bs : Bytes) : Nat := bytesToNat bs % 2 ^ 255

/-- `Scalar::from_hash` / `from_bytes_mod_order_wide`: a 64-byte digest
interpreted little-endian and reduced mod `L`. -/
def scalarFromHash (bs : Bytes) : Nat := bytesToNat bs % L

/-- `Scalar::from_canonical_bytes`: reject encodings with the top bit set,
then accept exactly the fully reduced values (`< L`). -/
def scalarFromCanonicalBytes (bs : Bytes) : Option Nat :=
  if byteAt bs 31 >>> 7 ≠ 0 then none
  else if scalarFromBits bs < L then some (scalarFromBits bs) else none

/-- Errors of the cryptographic layer.  `rustPanic` marks executions in which
the Rust code panics (slice indexing out of bounds, `unwrap` on `None`)
instead of returning an error value. -/
inductive CErr
  | rustPanic
  | emptyMessage
  | decryptError
  | authFailed
  | scalarFormatError
  | bytesLengthError
  | verificationFailed
  | invalidPoint
  | notHex
  | badKeyLength
deriving DecidableEq

/-- Clamping of a hashed secret, `mask` being the mask applied to byte 31
(the source uses `0x7F` for public-key/DH derivation and `0x3F` for the
expanded signing key): clear bits 0-2 of byte 0, mask byte 31, set bit 6 of
byte 31.  Written for 32-byte inputs as an index-0 / index-31 update. -/
def clamp (mask : Nat) (bs : Bytes) : Bytes :=
  [byteAt bs 0 &&& 248] ++ ((bs.drop 1).take 30) ++ [(byteAt bs 31 &&& mask) ||| 64]

/-- A digest function producing 64 output bytes (Keccak-512 / SHA-512). -/
def ValidDigest (D : Bytes → Bytes) : Prop :=
  ∀ m, (D m).length = 64 ∧ ValidBytes (D m)

/-! ## EdDSA signing engine (both variants)

Translated from `crypto-nis1/src/internal_private_key.rs`,
`internal_public_key.rs`, `internal_signature.rs` and `lib.rs`; the Symbol
variant is the same algorithm in the external `ed25519-dalek` crate with
SHA-512 in place of Keccak-512 and no seed reversal. -/

/-- The expanded private key: clamped scalar and 32-byte nonce. -/
structure ExpandedPrivateKey where
  key : Nat
  nonce : Bytes
deriving DecidableEq

/-- `ExpandedPrivateKey::from(&PrivateKey)`: one digest of the (reversed, for
NIS1) seed; low half clamped with the `0x3F` mask, high half is the nonce. -/
def expandedFromSeed (D : Bytes → Bytes) (rev : Bool) (seed : Bytes) : ExpandedPrivateKey :=
  let hash := D (if rev then seed.reverse else seed)
  { key := scalarFromBits (clamp 63 (hash.take 32)), nonce := hash.drop 32 }

/-- `mangle_scalar_bits_and_multiply_by_basepoint_to_produce_public_key`
composed with `From<PrivateKey> for InternalPublicKey` (and its dalek
counterpart): clamp the low digest half with the `0x7F` mask and multiply by
the basepoint. -/
def derivePub (D : Bytes → Bytes) (rev : Bool) (seed : Bytes) : Bytes :=
  let hash := D (if rev then seed.reverse else seed)
  compress (pointMulBase (scalarFromBits (clamp 127 (hash.take 32))))

/-- `ExpandedPrivateKey::sign` (and dalek `ExpandedSecretKey::sign`):
`r = H(nonce ‖ msg)`, `R = r * B`, `k = H(R ‖ pk ‖ msg)`, `s = k*key + r mod L`. -/
def expandedSign (D : Bytes → Bytes) (epk : ExpandedPrivateKey) (pk msg : Bytes) : Bytes :=
  let r := scalarFromHash (D (epk.nonce ++ msg))
  let Rb := compress (pointMulBase r)
  let k := scalarFromHash (D (Rb ++ pk ++ msg))
  let s := (k * epk.key + r) % L
  Rb ++ natToBytes 32 s

/-- `check_scalar` (crypto-nis1/src/lib.rs): succeed fast when the top four
bits of byte 31 are clear, otherwise require a canonical encoding. -/
def check_scalar (bs : Bytes) : Except CErr Nat :=
  if byteAt bs 31 &&& 240 = 0 then .ok (scalarFromBits bs)
  else
    match scalarFromCanonicalBytes bs with
    | none => .error .scalarFormatError
    | some x => .ok x

/-- `InternalSignature::from_bytes`: length check, split into `R` and `s`,
canonical-scalar check on `s`. -/
def internalSigFromBytes (sig : Bytes) : Except CErr (Bytes × Nat) :=
  if sig.length ≠ 64 then .error .bytesLengthError
  else
    match check_scalar (sig.drop 32) with
    | .error e => .error e
    | .ok s => .ok (sig.take 32, s)

/-- The common verification body (`Verifier::verify` for `InternalPublicKey`
and its dalek counterpart), after the public key has been decompressed to `A`:
recompute `k` and accept iff `k*(-A) + s*B` compresses to `R`. -/
def verifyCore (D : Bytes → Bytes) (pkBytes : Bytes) (A : Nat) (msg sig : Bytes) :
    Except CErr Unit :=
  match internalSigFromBytes sig with
  | .error e => .error e
  | .ok (Rb, s) =>
    let k := scalarFromHash (D (Rb ++ pkBytes ++ msg))
    let Rpt := pointAdd (pointMul k (pointNeg A)) (pointMulBase s)
    if compress Rpt = Rb then .ok () else .error .verificationFailed

/-- A keypair: raw private seed and compressed public key bytes. -/
structure Keypair where
  private_key : Bytes
  public_key : Bytes
deriving DecidableEq

namespace Nis1

/-- NIS1 `Keypair::sign`: expand the private key (Keccak-512, reversed seed)
and sign with the keypair's stored public key. -/
def sign (D : Bytes → Bytes) (kp : Keypair) (msg : Bytes) : Bytes :=
  expandedSign D (expandedFromSeed D true kp.private_key) kp.public_key msg

/-- NIS1 `Keypair::verify`: `InternalPublicKey::from(PublicKey)` unwraps the
decompression (panicking on an invalid point), then runs verification. -/
def verify (D : Bytes → Bytes) (pkBytes msg sig : Bytes) : Except CErr Unit :=
  match decompress pkBytes with
  | none => .error .rustPanic
  | some A => verifyCore D pkBytes A msg sig

end Nis1

namespace Sym

/-- Symbol signing body: dalek `ExpandedSecretKey::sign` with SHA-512,
no seed reversal. -/
def signBytes (D : Bytes → Bytes) (sk pk msg : Bytes) : Bytes :=
  expandedSign D (expandedFromSeed D false sk) pk msg

/-- Symbol `Keypair::sign`: rebuilds a dalek keypair from the stored bytes
with `unwrap` — a stored public key that does not decompress panics — then
signs with the expanded secret key and the stored public key. -/
def sign (D : Bytes → Bytes) (kp : Keypair) (msg : Bytes) : Except CErr Bytes :=
  match decompress kp.public_key with
  | none => .error .rustPanic
  | some _ => .ok (signBytes D kp.private_key kp.public_key msg)

/-- Symbol `Keypair::verify`: `PublicKey::from_bytes` fails with an error on
an invalid point, then dalek verification runs. -/
def verify (D : Bytes → Bytes) (pkBytes msg sig : Bytes) : Except CErr Unit :=
  match decompress pkBytes with
  | none => .error .invalidPoint
  | some A => verifyCore D pkBytes A msg sig

end Sym

/-! ## Arithmetic facts about the model -/

theorem L_pos : 0 < L := by norm_num [L]

theorem two_pow_252_lt_L : 2 ^ 252 < L := by norm_num [L]

theorem L_lt_two_pow_253 : L < 2 ^ 253 := by norm_num [L]

theorem bytesToNat_split31 (bs : Bytes) (h : bs.length = 32) :
    bytesToNat bs = bytesToNat (bs.take 31) + 2 ^ 248 * byteAt bs 31 := by
  have hsplit : bs = bs.take 31 ++ bs.drop 31 := (List.take_append_drop 31 bs).symm
  have hlen : (bs.drop 31).length = 1 := by simp [h]
  obtain ⟨x, hx⟩ : ∃ x, bs.drop 31 = [x] := by
    cases hd : bs.drop 31 with
    | nil => rw [hd] at hlen; simp at hlen
    | cons a t =>
      cases t with
      | nil => exact ⟨a, rfl⟩
      | cons b t2 => rw [hd] at hlen; simp at hlen
  have hb : byteAt bs 31 = x := by simp [byteAt, hx]
  have htake : (bs.take 31).length = 31 := by simp [h]
  conv_lhs => rw [hsplit]
  rw [bytesToNat_append, hx, hb, htake]
  have h31 : (256 : Nat) ^ 31 = 2 ^ 248 := by norm_num
  simp [bytesToNat, h31]

theorem bytesToNat_lt_of_top (bs : Bytes) (hlen : bs.length = 32) (hv : ValidBytes bs)
    {k : Nat} (htop : byteAt bs 31 < k) : bytesToNat bs < 2 ^ 248 * k := by
  rw [bytesToNat_split31 bs hlen]
  have hvt : ValidBytes (bs.take 31) := fun b hb => hv b (List.mem_of_mem_take hb)
  have h1 : bytesToNat (bs.take 31) < 256 ^ 31 := by
    have := bytesToNat_lt (bs.take 31) hvt
    rwa [show (bs.take 31).length = 31 by simp [hlen]] at this
  have h31 : (256 : Nat) ^ 31 = 2 ^ 248 := by norm_num
  rw [h31] at h1
  nlinarith

theorem byteAt_le_bytesToNat (bs : Bytes) (hlen : bs.length = 32) :
    2 ^ 248 * byteAt bs 31 ≤ bytesToNat bs := by
  rw [bytesToNat_split31 bs hlen]; omega

set_option maxRecDepth 8192 in
theorem land240_lt_16 : ∀ x < 256, x &&& 240 = 0 → x < 16 := by decide

set_option maxRecDepth 8192 in
theorem land_lor_64_eq : ∀ x < 256, (x &&& 63) ||| 64 = (x &&& 127) ||| 64 := by decide

theorem natToBytes_drop (i len n : Nat) (h : i ≤ len) :
    (natToBytes len n).drop i = natToBytes (len - i) (n / 256 ^ i) := by
  induction i generalizing len n with
  | zero => simp
  | succ j ih =>
    cases len with
    | zero => omega
    | succ k =>
      show (natToBytes (k + 1) n).drop (j + 1) = _
      rw [natToBytes]
      show (natToBytes k (n / 256)).drop j = _
      rw [ih k (n / 256) (by omega)]
      congr 1
      · omega
      · rw [Nat.div_div_eq_div_mul]
        congr 1
        rw [pow_succ]
        ring

theorem byteAt_natToBytes31 (n : Nat) :
    byteAt (natToBytes 32 n) 31 = n / 2 ^ 248 % 256 := by
  unfold byteAt
  rw [natToBytes_drop 31 32 n (by omega)]
  show (natToBytes 1 (n / 256 ^ 31)).headD 0 = _
  have h31 : (256 : Nat) ^ 31 = 2 ^ 248 := by norm_num
  simp [natToBytes, h31]

/-- Decompression inverts compression (external-primitive contract that the
model realises). -/
theorem decompress_compress (p : Nat) : decompress (compress p) = some (p % L) := by
  unfold decompress compress
  have hlt : p % L < L := Nat.mod_lt _ L_pos
  have hle : p % L < 256 ^ 32 := lt_of_lt_of_le hlt (by norm_num [L])
  rw [if_pos]
  · rw [bytesToNat_natToBytes 32 (p % L) hle]
  · exact ⟨natToBytes_length _ _, by rw [bytesToNat_natToBytes 32 (p % L) hle]; exact hlt⟩

theorem compress_length (p : Nat) : (compress p).length = 32 := natToBytes_length _ _

/-- `check_scalar` accepts the canonical encoding of any reduced scalar and
returns the scalar itself. -/
theorem check_scalar_roundtrip (s : Nat) (hs : s < L) :
    check_scalar (natToBytes 32 s) = .ok s := by
  have hsfb : scalarFromBits (natToBytes 32 s) = s := by
    unfold scalarFromBits
    rw [bytesToNat_natToBytes 32 s (lt_of_lt_of_le hs (by norm_num [L]))]
    exact Nat.mod_eq_of_lt (lt_trans (lt_trans hs L_lt_two_pow_253) (by norm_num))
  have htop : byteAt (natToBytes 32 s) 31 < 32 := by
    rw [byteAt_natToBytes31]
    have : s / 2 ^ 248 < 32 := by
      rw [Nat.div_lt_iff_lt_mul (by positivity)]
      calc s < 2 ^ 253 := lt_trans hs L_lt_two_pow_253
        _ = 32 * 2 ^ 248 := by norm_num
    omega
  unfold check_scalar
  by_cases hfast : byteAt (natToBytes 32 s) 31 &&& 240 = 0
  · rw [if_pos hfast, hsfb]
  · rw [if_neg hfast]
    unfold scalarFromCanonicalBytes
    have hshift : byteAt (natToBytes 32 s) 31 >>> 7 = 0 := by
      rw [Nat.shiftRight_eq_div_pow]
      exact Nat.div_eq_of_lt (by omega)
    rw [if_neg (by simp [hshift]), hsfb, if_pos hs]

/-! ## Clamping lemmas -/

theorem clamp_split (mask : Nat) (bs : Bytes) :
    clamp mask bs =
      ([byteAt bs 0 &&& 248] ++ (bs.drop 1).take 30) ++ [(byteAt bs 31 &&& mask) ||| 64] := by
  simp [clamp]

theorem clamp_length (mask : Nat) (bs : Bytes) (h : bs.length = 32) :
    (clamp mask bs).length = 32 := by
  simp [clamp, h]

theorem clamp_valid (mask : Nat) (bs : Bytes) (hv : ValidBytes bs) :
    ValidBytes (clamp mask bs) := by
  intro b hb
  simp only [clamp, List.append_assoc, List.mem_append, List.mem_singleton,
    List.mem_cons, List.not_mem_nil, or_false] at hb
  rcases hb with h | h | h
  · subst h
    exact Nat.and_lt_two_pow _ (show (248 : Nat) < 2 ^ 8 by norm_num)
  · exact hv b (List.mem_of_mem_drop (List.mem_of_mem_take h))
  · subst h
    have h1 : byteAt bs 31 &&& mask < 256 :=
      lt_of_le_of_lt Nat.and_le_left (byteAt_valid bs hv 31)
    calc (byteAt bs 31 &&& mask) ||| 64 < 2 ^ 8 :=
          Nat.or_lt_two_pow (by exact_mod_cast h1) (by norm_num)
      _ = 256 := by norm_num

theorem clamp_byteAt31 (mask : Nat) (bs : Bytes) (h : bs.length = 32) :
    byteAt (clamp mask bs) 31 = (byteAt bs 31 &&& mask) ||| 64 := by
  unfold byteAt
  rw [clamp_split]
  have hlen : ([byteAt bs 0 &&& 248] ++ (bs.drop 1).take 30).length = 31 := by
    simp [h]
  rw [show (31 : Nat) = ([byteAt bs 0 &&& 248] ++ (bs.drop 1).take 30).length from hlen.symm,
    List.drop_left]
  rfl

theorem clamp63_eq_clamp127 (bs : Bytes) (hv : ValidBytes bs) :
    clamp 63 bs = clamp 127 bs := by
  unfold clamp
  rw [land_lor_64_eq (byteAt bs 31) (byteAt_valid bs hv 31)]

theorem bytesToNat_clamp_lt (mask : Nat) (hm : mask ≤ 127) (bs : Bytes)
    (h : bs.length = 32) (hv : ValidBytes bs) :
    bytesToNat (clamp mask bs) < 2 ^ 255 := by
  have htop : byteAt (clamp mask bs) 31 < 128 := by
    rw [clamp_byteAt31 mask bs h]
    have h1 : byteAt bs 31 &&& mask < 128 :=
      lt_of_le_of_lt Nat.and_le_right (by omega)
    exact Nat.or_lt_two_pow (show _ < 2 ^ 7 by exact_mod_cast h1) (by norm_num)
  calc bytesToNat (clamp mask bs) < 2 ^ 248 * 128 :=
        bytesToNat_lt_of_top _ (clamp_length mask bs h) (clamp_valid mask bs hv) htop
    _ = 2 ^ 255 := by norm_num

theorem scalarFromBits_clamp (mask : Nat) (hm : mask ≤ 127) (bs : Bytes)
    (h : bs.length = 32) (hv : ValidBytes bs) :
    scalarFromBits (clamp mask bs) = bytesToNat (clamp mask bs) := by
  unfold scalarFromBits
  exact Nat.mod_eq_of_lt (bytesToNat_clamp_lt mask hm bs h hv)

/-- **C3**: for a 32-byte scalar half `s` parsed during NIS1 verification:
if the top 4 bits of the last byte are clear, `s` is already fully reduced
(below the group order `L`) and the fast path accepts it; otherwise parsing
succeeds exactly when the integer value of `s` is strictly below `L`. -/
theorem spec_C3 (bs : Bytes) (hlen : bs.length = 32) (hv : ValidBytes bs) :
    (byteAt bs 31 &&& 240 = 0 →
      bytesToNat bs < L ∧ check_scalar bs = .ok (bytesToNat bs)) ∧
    (byteAt bs 31 &&& 240 ≠ 0 →
      ((∃ x, check_scalar bs = .ok x) ↔ bytesToNat bs < L)) := by
  constructor
  · intro h240
    have h16 : byteAt bs 31 < 16 := land240_lt_16 _ (byteAt_valid bs hv 31) h240
    have hlt : bytesToNat bs < 2 ^ 252 := by
      calc bytesToNat bs < 2 ^ 248 * 16 := bytesToNat_lt_of_top bs hlen hv h16
        _ = 2 ^ 252 := by norm_num
    refine ⟨lt_trans hlt two_pow_252_lt_L, ?_⟩
    unfold check_scalar
    rw [if_pos h240]
    unfold scalarFromBits
    rw [Nat.mod_eq_of_lt (lt_trans hlt (by norm_num))]
  · intro h240
    unfold check_scalar
    rw [if_neg h240]
    by_cases h128 : byteAt bs 31 < 128
    · have hshift : byteAt bs 31 >>> 7 = 0 := by
        rw [Nat.shiftRight_eq_div_pow]
        exact Nat.div_eq_of_lt (by omega)
      have hsfb : scalarFromBits bs = bytesToNat bs := by
        unfold scalarFromBits
        refine Nat.mod_eq_of_lt ?_
        calc bytesToNat bs < 2 ^ 248 * 128 := bytesToNat_lt_of_top bs hlen hv h128
          _ = 2 ^ 255 := by norm_num
      unfold scalarFromCanonicalBytes
      rw [if_neg (by simp [hshift]), hsfb]
      by_cases hL : bytesToNat bs < L
      · rw [if_pos hL]
        exact ⟨fun _ => hL, fun _ => ⟨bytesToNat bs, rfl⟩⟩
      · rw [if_neg hL]
        constructor
        · rintro ⟨x, hx⟩; exact absurd hx (by simp)
        · intro h; exact absurd h hL
    · have hge : 2 ^ 255 ≤ bytesToNat bs := by
        have := byteAt_le_bytesToNat bs hlen
        calc (2 : Nat) ^ 255 = 2 ^ 248 * 128 := by norm_num
          _ ≤ 2 ^ 248 * byteAt bs 31 := Nat.mul_le_mul_left _ (by omega)
          _ ≤ bytesToNat bs := this
      have hnL : ¬ bytesToNat bs < L := by
        have := L_lt_two_pow_253
        omega
      have hshift : byteAt bs 31 >>> 7 ≠ 0 := by
        rw [Nat.shiftRight_eq_div_pow]
        have : 128 ≤ byteAt bs 31 := by omega
        have hpos : 0 < byteAt bs 31 / 2 ^ 7 := Nat.div_pos (by norm_num at this ⊢; omega) (by norm_num)
        omega
      unfold scalarFromCanonicalBytes
      rw [if_pos (by simpa using hshift)]
      constructor
      · rintro ⟨x, hx⟩; exact absurd hx (by simp)
      · intro h; exact absurd h hnL

/-- Closed witness for C3 at the all-zero scalar encoding. -/
theorem spec_C3_witness :
    (List.replicate 32 0 : Bytes).length = 32 ∧ ValidBytes (List.replicate 32 0) ∧
    ((byteAt (List.replicate 32 0) 31 &&& 240 = 0 →
        bytesToNat (List.replicate 32 0) < L ∧
        check_scalar (List.replicate 32 0) = .ok (bytesToNat (List.replicate 32 0))) ∧
      (byteAt (List.replicate 32 0) 31 &&& 240 ≠ 0 →
        ((∃ x, check_scalar (List.replicate 32 0) = .ok x) ↔
          bytesToNat (List.replicate 32 0) < L))) :=
  ⟨by decide, by decide, spec_C3 _ (by decide) (by decide)⟩

/-! ## C4: the NIS1 signing formula -/

/-- NIS1 signing as a function of seed, stored public key and message
(`Keypair::sign` with the keypair's stored public key made explicit). -/
def Nis1.signWith (D : Bytes → Bytes) (seed pk msg : Bytes) : Bytes :=
  expandedSign D (expandedFromSeed D true seed) pk msg

/-- The NIS1 signing computation exactly as the specification states it:
an expanded key `(a, nonce)` from one Keccak-512 hash of the byte-reversed
seed with the low 32 bytes clamped (bits 0-2 of byte 0 cleared, bit 7 of
byte 31 cleared, bit 6 of byte 31 set) and interpreted little-endian;
`r = H(nonce ‖ msg) mod L`; `R = compress(r·B)`; `k = H(R ‖ pk ‖ msg) mod L`;
`s = k·a + r mod L`; output `R ‖ s`. -/
def specNis1Sign (keccak512 : Bytes → Bytes) (seed pk msg : Bytes) : Bytes :=
  let hash := keccak512 seed.reverse
  let a := bytesToNat (clamp 127 (hash.take 32))
  let nonce := hash.drop 32
  let r := bytesToNat (keccak512 (nonce ++ msg)) % L
  let Rb := compress (pointMulBase r)
  let k := bytesToNat (keccak512 (Rb ++ pk ++ msg)) % L
  let s := (k * a + r) % L
  Rb ++ natToBytes 32 s

/-- The two clamped scalars (signing key, `0x3F` mask, via `from_bits`;
spec formula, `0x7F` mask, plain little-endian value) coincide. -/
theorem signingKey_eq_specKey (D : Bytes → Bytes) (hD : ValidDigest D) (input : Bytes) :
    scalarFromBits (clamp 63 ((D input).take 32)) =
      bytesToNat (clamp 127 ((D input).take 32)) := by
  obtain ⟨hlen, hv⟩ := hD input
  have hv32 : ValidBytes ((D input).take 32) := fun b hb => hv b (List.mem_of_mem_take hb)
  have hlen32 : ((D input).take 32).length = 32 := by simp [hlen]
  rw [clamp63_eq_clamp127 _ hv32, scalarFromBits_clamp 127 (by norm_num) _ hlen32 hv32]

/-- **C4**: NIS1 `sign` computes exactly the formula stated in the
specification, and in particular is a deterministic function of
(seed, public key, message). -/
theorem spec_C4 (D : Bytes → Bytes) (hD : ValidDigest D) (seed pk msg : Bytes) :
    Nis1.signWith D seed pk msg = specNis1Sign D seed pk msg := by
  unfold Nis1.signWith expandedSign expandedFromSeed specNis1Sign scalarFromHash
  simp only [eq_self_iff_true, if_true]
  rw [signingKey_eq_specKey D hD seed.reverse]

/-- A trivial 64-byte digest used to instantiate witnesses. -/
def constDigest : Bytes → Bytes := fun _ => List.replicate 64 0

theorem constDigest_valid : ValidDigest constDigest := by
  intro m
  refine ⟨by simp [constDigest], ?_⟩
  intro b hb
  simp only [constDigest, List.mem_replicate] at hb
  omega

/-- Closed witness for C4 on concrete inputs. -/
theorem spec_C4_witness :
    ValidDigest constDigest ∧
      Nis1.signWith constDigest [1, 2, 3] [4] [5, 6] =
        specNis1Sign constDigest [1, 2, 3] [4] [5, 6] :=
  ⟨constDigest_valid, spec_C4 constDigest constDigest_valid [1, 2, 3] [4] [5, 6]⟩

/-! ## C1: verification accepts honest signatures -/

theorem verify_equation (k a r : Nat) :
    pointAdd (pointMul k (pointNeg (a % L))) (pointMulBase ((k * a + r) % L)) = r % L := by
  unfold pointAdd pointMul pointNeg pointMulBase
  simp only [Nat.mod_mod_of_dvd _ (dvd_refl L)]
  rw [← ZMod.natCast_eq_natCast_iff']
  have hle : a % L ≤ L := le_of_lt (Nat.mod_lt _ L_pos)
  push_cast [ZMod.natCast_mod, Nat.cast_sub hle, ZMod.natCast_self]
  ring

/-- The clamped scalar whose basepoint multiple is the derived public key. -/
def pubScalar (D : Bytes → Bytes) (rev : Bool) (seed : Bytes) : Nat :=
  scalarFromBits (clamp 127 ((D (if rev then seed.reverse else seed)).take 32))

theorem derivePub_eq (D : Bytes → Bytes) (rev : Bool) (seed : Bytes) :
    derivePub D rev seed = compress (pubScalar D rev seed) := by
  unfold derivePub pubScalar compress pointMulBase
  simp [Nat.mod_mod_of_dvd _ (dvd_refl L)]

theorem derivePub_decompress (D : Bytes → Bytes) (rev : Bool) (seed : Bytes) :
    decompress (derivePub D rev seed) = some (pubScalar D rev seed % L) := by
  rw [derivePub_eq, decompress_compress]

theorem expandedKey_eq_pubScalar (D : Bytes → Bytes) (hD : ValidDigest D)
    (rev : Bool) (seed : Bytes) :
    (expandedFromSeed D rev seed).key = pubScalar D rev seed := by
  unfold expandedFromSeed pubScalar
  obtain ⟨hlen, hv⟩ := hD (if rev then seed.reverse else seed)
  have hv32 : ValidBytes ((D (if rev then seed.reverse else seed)).take 32) :=
    fun b hb => hv b (List.mem_of_mem_take hb)
  simp only []
  rw [clamp63_eq_clamp127 _ hv32]

theorem internalSigFromBytes_append (Rb : Bytes) (hR : Rb.length = 32) (s : Nat) (hs : s < L) :
    internalSigFromBytes (Rb ++ natToBytes 32 s) = .ok (Rb, s) := by
  unfold internalSigFromBytes
  have hlen : (Rb ++ natToBytes 32 s).length = 64 := by
    simp [hR, natToBytes_length]
  rw [if_neg (by simp [hlen])]
  have hdrop : (Rb ++ natToBytes 32 s).drop 32 = natToBytes 32 s := by
    rw [show (32 : Nat) = Rb.length from hR.symm, List.drop_left]
  have htake : (Rb ++ natToBytes 32 s).take 32 = Rb := by
    rw [show (32 : Nat) = Rb.length from hR.symm, List.take_left]
  rw [hdrop, check_scalar_roundtrip s hs, htake]

/-- The common body: verification of an honestly produced signature under the
derived public key succeeds, for any 64-byte digest and either seed
convention. -/
theorem verifyCore_sign (D : Bytes → Bytes) (hD : ValidDigest D) (rev : Bool)
    (seed msg : Bytes) :
    verifyCore D (derivePub D rev seed) (pubScalar D rev seed % L) msg
      (expandedSign D (expandedFromSeed D rev seed) (derivePub D rev seed) msg) = .ok () := by
  have hkey := expandedKey_eq_pubScalar D hD rev seed
  unfold expandedSign verifyCore
  simp only []
  rw [internalSigFromBytes_append _ (compress_length _) _ (Nat.mod_lt _ L_pos)]
  simp only []
  rw [hkey, verify_equation]
  rw [if_pos]
  unfold compress pointMulBase
  rw [Nat.mod_mod_of_dvd _ (dvd_refl L)]

/-- **C1**: for every keypair whose public key is derived from its private
key, and every message, `verify(K.public, m, sign(K, m))` accepts, in both
the Symbol (Variant A) and NIS1 (Variant B) schemes (for Symbol, signing
itself also succeeds, returning the signature bytes). -/
theorem spec_C1 (DA DB : Bytes → Bytes) (hDA : ValidDigest DA) (hDB : ValidDigest DB)
    (kpA kpB : Keypair) (msgA msgB : Bytes)
    (hkA : kpA.public_key = derivePub DA false kpA.private_key)
    (hkB : kpB.public_key = derivePub DB true kpB.private_key) :
    Sym.sign DA kpA msgA = .ok (Sym.signBytes DA kpA.private_key kpA.public_key msgA) ∧
    Sym.verify DA kpA.public_key msgA
      (Sym.signBytes DA kpA.private_key kpA.public_key msgA) = .ok () ∧
    Nis1.verify DB kpB.public_key msgB (Nis1.sign DB kpB msgB) = .ok () := by
  refine ⟨?_, ?_, ?_⟩
  · unfold Sym.sign
    rw [hkA, derivePub_decompress]
  · unfold Sym.verify Sym.signBytes
    rw [hkA, derivePub_decompress]
    exact verifyCore_sign DA hDA false kpA.private_key msgA
  · unfold Nis1.verify Nis1.sign
    rw [hkB, derivePub_decompress]
    exact verifyCore_sign DB hDB true kpB.private_key msgB

/-- Closed witness for C1: concrete keypairs with derived public keys. -/
theorem spec_C1_witness :
    ValidDigest constDigest ∧
    (let kpA : Keypair := ⟨[7], derivePub constDigest false [7]⟩
     let kpB : Keypair := ⟨[9], derivePub constDigest true [9]⟩
     Sym.sign constDigest kpA [1] =
        .ok (Sym.signBytes constDigest kpA.private_key kpA.public_key [1]) ∧
      Sym.verify constDigest kpA.public_key [1]
        (Sym.signBytes constDigest kpA.private_key kpA.public_key [1]) = .ok () ∧
      Nis1.verify constDigest kpB.public_key [2] (Nis1.sign constDigest kpB [2]) = .ok ()) :=
  ⟨constDigest_valid,
    spec_C1 constDigest constDigest constDigest_valid constDigest_valid
      ⟨[7], derivePub constDigest false [7]⟩ ⟨[9], derivePub constDigest true [9]⟩
      [1] [2] rfl rfl⟩

/-! ## Diffie-Hellman shared secret (core-crypto/src/block_cipher.rs) -/

/-- `scalar_from_sk`: digest the secret-key bytes, clamp the low 32 bytes
(`0xF8`/`0x7F`/`0x40`), interpret via `Scalar::from_bits`. -/
def scalar_from_sk (D : Bytes → Bytes) (secret_key : Bytes) : Nat :=
  scalarFromBits (clamp 127 ((D secret_key).take 32))

/-- `derive_shared_secret`: decompress the peer public key — the source calls
`.unwrap()`, so a failed decompression panics — then multiply the decompressed
point by the clamped scalar and compress the product. -/
def derive_shared_secret (D : Bytes → Bytes) (secret_key public_key : Bytes) :
    Except CErr Bytes :=
  match decompress public_key with
  | none => .error .rustPanic
  | some P => .ok (compress (pointMul (scalar_from_sk D secret_key) P))

/-! ## AES primitives model

`E`/`Dn` are the raw AES-256 block permutations keyed by the derived key;
`ks` is the GCM keystream (key, iv, length) and `tagF` the GCM tag over the
ciphertext.  CBC chaining, PKCS#7 padding and the GCM compose/verify steps
are implemented concretely, following the external crates. -/

/-- Split a buffer into 16-byte blocks. -/
def chunk16 (bs : Bytes) : List Bytes :=
  if h : bs = [] then [] else bs.take 16 :: chunk16 (bs.drop 16)
termination_by bs.length
decreasing_by
  simp only [List.length_drop]
  have := List.length_pos.mpr h
  omega

/-- PKCS#7 padding to 16-byte blocks (always appends 1..16 bytes). -/
def pkcs7Pad (msg : Bytes) : Bytes :=
  let p := 16 - msg.length % 16
  msg ++ List.replicate p p

/-- PKCS#7 unpadding: the last byte is the pad length, which must be in
`1..len`, and every pad byte must equal it. -/
def pkcs7Unpad (bs : Bytes) : Except CErr Bytes :=
  match bs.getLast? with
  | none => .error .decryptError
  | some p =>
    if p = 0 ∨ bs.length < p then .error .decryptError
    else if (bs.drop (bs.length - p)).all (fun x => x == p) then
      .ok (bs.take (bs.length - p))
    else .error .decryptError

/-- CBC encryption chaining. -/
def cbcEncryptBlocks (E : Bytes → Bytes) : Bytes → List Bytes → List Bytes
  | _, [] => []
  | prev, b :: rest =>
    let c := E (xorBytes prev b)
    c :: cbcEncryptBlocks E c rest

/-- CBC decryption chaining. -/
def cbcDecryptBlocks (Dn : Bytes → Bytes) : Bytes → List Bytes → List Bytes
  | _, [] => []
  | prev, c :: rest => xorBytes prev (Dn c) :: cbcDecryptBlocks Dn c rest

/-- `Aes256Cbc::encrypt_vec`: PKCS#7-pad then CBC-encrypt. -/
def cbcEncrypt (E : Bytes → Bytes) (iv msg : Bytes) : Bytes :=
  (cbcEncryptBlocks E iv (chunk16 (pkcs7Pad msg))).flatten

/-- `Aes256Cbc::decrypt_vec`: whole blocks only, CBC-decrypt, unpad. -/
def cbcDecrypt (Dn : Bytes → Bytes) (iv ct : Bytes) : Except CErr Bytes :=
  if ct.length % 16 ≠ 0 then .error .decryptError
  else pkcs7Unpad ((cbcDecryptBlocks Dn iv (chunk16 ct)).flatten)

/-- AES-256-GCM encryption (`encrypt_in_place_detached`): keystream XOR plus
a 16-byte tag over the ciphertext. -/
def gcmEncrypt (ks : Bytes → Bytes → Nat → Bytes) (tagF : Bytes → Bytes → Bytes → Bytes)
    (key iv msg : Bytes) : Bytes × Bytes :=
  let ct := xorBytes msg (ks key iv msg.length)
  (ct, tagF key iv ct)

/-- AES-256-GCM decryption (`decrypt` on ciphertext ‖ tag): check the buffer
holds a tag, recompute and compare it, then XOR the keystream back. -/
def gcmDecrypt (ks : Bytes → Bytes → Nat → Bytes) (tagF : Bytes → Bytes → Bytes → Bytes)
    (key iv data : Bytes) : Except CErr Bytes :=
  if data.length < 16 then .error .authFailed
  else
    let ct := data.take (data.length - 16)
    let tag := data.drop (data.length - 16)
    if tagF key iv ct = tag then .ok (xorBytes ct (ks key iv ct.length))
    else .error .authFailed

namespace CryptoNis1

/-- `derive_shared_key` (crypto-nis1/src/cipher.rs): reverse the secret key,
Keccak-512 shared secret, XOR with the salt, Keccak-256. -/
def derive_shared_key (keccak512 keccak256 : Bytes → Bytes)
    (salt secret_key public_key : Bytes) : Except CErr Bytes :=
  match derive_shared_secret keccak512 secret_key.reverse public_key with
  | .error e => .error e
  | .ok ss => .ok (keccak256 (xorBytes ss salt))

/-- `CryptoNis1::encrypt_message`, with the random salt and IV passed
explicitly: CBC-encrypt and return `salt ‖ iv ‖ ciphertext`. -/
def encrypt_message (E : Bytes → Bytes → Bytes) (keccak512 keccak256 : Bytes → Bytes)
    (iv salt signer_sk receiver_pk msg : Bytes) : Except CErr Bytes :=
  match derive_shared_key keccak512 keccak256 salt signer_sk receiver_pk with
  | .error e => .error e
  | .ok key => .ok (salt ++ iv ++ cbcEncrypt (E key) iv msg)

/-- `CryptoNis1::decrypt_message`: empty check, then split at the fixed
offsets.  A non-empty envelope shorter than 48 bytes makes the Rust slice
expressions `enc_msg[32..48]` / `enc_msg[48..]` panic. -/
def decrypt_message (Dn : Bytes → Bytes → Bytes) (keccak512 keccak256 : Bytes → Bytes)
    (receiver_sk signer_pk enc_msg : Bytes) : Except CErr Bytes :=
  if enc_msg = [] then .error .emptyMessage
  else if enc_msg.length < 48 then .error .rustPanic
  else
    let iv := (enc_msg.drop 32).take 16
    let salt := enc_msg.take 32
    match derive_shared_key keccak512 keccak256 salt receiver_sk signer_pk with
    | .error e => .error e
    | .ok key => cbcDecrypt (Dn key) iv (enc_msg.drop 48)

end CryptoNis1

namespace CryptoSym

/-- `derive_shared_key` (crypto-sym cipher.rs): SHA-512 shared secret then
HKDF-SHA256 with the fixed "catapult" info string. -/
def derive_shared_key (sha512 hkdf : Bytes → Bytes) (secret_key public_key : Bytes) :
    Except CErr Bytes :=
  match derive_shared_secret sha512 secret_key public_key with
  | .error e => .error e
  | .ok ss => .ok (hkdf ss)

/-- `CryptoSym::encrypt_message`, with the random IV passed explicitly:
GCM-encrypt and return `tag ‖ iv ‖ ciphertext`. -/
def encrypt_message (ks : Bytes → Bytes → Nat → Bytes) (tagF : Bytes → Bytes → Bytes → Bytes)
    (sha512 hkdf : Bytes → Bytes) (iv signer_sk receiver_pk msg : Bytes) :
    Except CErr Bytes :=
  match derive_shared_key sha512 hkdf signer_sk receiver_pk with
  | .error e => .error e
  | .ok key =>
    let enc := gcmEncrypt ks tagF key iv msg
    .ok (enc.2 ++ iv ++ enc.1)

/-- `CryptoSym::decrypt_message`: empty check, split at the fixed offsets,
reassemble `ciphertext ‖ tag`.  A non-empty envelope shorter than 28 bytes
makes the Rust slice expression `enc_msg[16..28]` panic. -/
def decrypt_message (ks : Bytes → Bytes → Nat → Bytes) (tagF : Bytes → Bytes → Bytes → Bytes)
    (sha512 hkdf : Bytes → Bytes) (receiver_sk signer_pk enc_msg : Bytes) :
    Except CErr Bytes :=
  if enc_msg = [] then .error .emptyMessage
  else if enc_msg.length < 28 then .error .rustPanic
  else
    let iv := (enc_msg.drop 16).take 12
    let tag := enc_msg.take 16
    let data := enc_msg.drop 28 ++ tag
    match derive_shared_key sha512 hkdf receiver_sk signer_pk with
    | .error e => .error e
    | .ok key => gcmDecrypt ks tagF key iv data

end CryptoSym

/-! ## C5, C6, C7: failure behaviour of the DH and cipher entry points -/

/-! ## Concrete primitive instances for cipher witnesses -/

/-- Identity block permutation. -/
def E0 : Bytes → Bytes → Bytes := fun _ b => b

/-- All-zero keystream. -/
def ks0 : Bytes → Bytes → Nat → Bytes := fun _ _ n => List.replicate n 0

/-- Constant 16-byte tag. -/
def tagF0 : Bytes → Bytes → Bytes → Bytes := fun _ _ _ => List.replicate 16 0


/-- The 32-byte little-endian encoding of the group order `L` itself: the
model rejects it (value not below `L`), and the external library's
decompression fails on it too — for `y = L` the quantity
`(y² - 1)/(d·y² + 1)` is a quadratic non-residue mod `2^255 - 19`, so no
`x`-coordinate exists.  (The model's failure set does not coincide with the
library's everywhere; this encoding lies in both.) -/
def badPoint : Bytes := natToBytes 32 L

theorem decompress_badPoint : decompress badPoint = none := by decide

/-- **C5** (observed behaviour on the decompression-failure branch): whenever
the peer public key fails to decompress, `derive_shared_secret` — and with it
both ciphers' `encrypt_message` and `decrypt_message`, which invoke it —
panics (`unwrap` on `None`), rather than returning the `InvalidPoint` error
value the claim and specification require. -/
theorem spec_C5 (D D2 hkdf : Bytes → Bytes) (E Dn : Bytes → Bytes → Bytes)
    (ks : Bytes → Bytes → Nat → Bytes) (tagF : Bytes → Bytes → Bytes → Bytes)
    (iv salt sk msg envB envA pk : Bytes) (hpk : decompress pk = none) :
    derive_shared_secret D sk pk = .error .rustPanic ∧
    CryptoNis1.encrypt_message E D D2 iv salt sk pk msg = .error .rustPanic ∧
    CryptoSym.encrypt_message ks tagF D hkdf iv sk pk msg = .error .rustPanic ∧
    (48 ≤ envB.length →
      CryptoNis1.decrypt_message Dn D D2 sk pk envB = .error .rustPanic) ∧
    (28 ≤ envA.length →
      CryptoSym.decrypt_message ks tagF D hkdf sk pk envA = .error .rustPanic) := by
  have h1 : ∀ sk2 : Bytes, derive_shared_secret D sk2 pk = .error .rustPanic := by
    intro sk2
    unfold derive_shared_secret
    rw [hpk]
  refine ⟨h1 sk, ?_, ?_, ?_, ?_⟩
  · unfold CryptoNis1.encrypt_message CryptoNis1.derive_shared_key
    rw [h1 sk.reverse]
  · unfold CryptoSym.encrypt_message CryptoSym.derive_shared_key
    rw [h1 sk]
  · intro hlen
    unfold CryptoNis1.decrypt_message
    rw [if_neg (by intro hc; rw [hc] at hlen; simp at hlen), if_neg (by omega)]
    unfold CryptoNis1.derive_shared_key
    rw [h1 sk.reverse]
  · intro hlen
    unfold CryptoSym.decrypt_message
    rw [if_neg (by intro hc; rw [hc] at hlen; simp at hlen), if_neg (by omega)]
    unfold CryptoSym.derive_shared_key
    rw [h1 sk]

/-- Closed witness for C5 at `badPoint`, an encoding on which decompression
genuinely fails (in the library as well as the model). -/
theorem spec_C5_witness :
    decompress badPoint = none ∧
    (derive_shared_secret constDigest [] badPoint = .error .rustPanic ∧
      CryptoNis1.encrypt_message E0 constDigest constDigest (List.replicate 16 0)
        (List.replicate 32 0) [] badPoint [1] = .error .rustPanic ∧
      CryptoSym.encrypt_message ks0 tagF0 constDigest constDigest (List.replicate 12 0)
        [] badPoint [1] = .error .rustPanic ∧
      (48 ≤ (List.replicate 48 0 : Bytes).length →
        CryptoNis1.decrypt_message E0 constDigest constDigest [] badPoint
          (List.replicate 48 0) = .error .rustPanic) ∧
      (28 ≤ (List.replicate 28 0 : Bytes).length →
        CryptoSym.decrypt_message ks0 tagF0 constDigest constDigest [] badPoint
          (List.replicate 28 0) = .error .rustPanic)) :=
  ⟨decompress_badPoint,
    spec_C5 constDigest constDigest constDigest E0 E0 ks0 tagF0 (List.replicate 16 0)
      (List.replicate 32 0) [] [1] (List.replicate 48 0) (List.replicate 28 0) badPoint
      decompress_badPoint⟩

/-- **C6** (observed behaviour at the failing inputs): a non-empty envelope
shorter than the fixed header (48 bytes for NIS1, 28 for Symbol) makes
`decrypt_message` panic on out-of-range slice indexing instead of returning
an error value. -/
theorem spec_C6 (Dn : Bytes → Bytes → Bytes) (keccak512 keccak256 sha512 hkdf : Bytes → Bytes)
    (ks : Bytes → Bytes → Nat → Bytes) (tagF : Bytes → Bytes → Bytes → Bytes)
    (receiver_sk signer_pk : Bytes) :
    CryptoNis1.decrypt_message Dn keccak512 keccak256 receiver_sk signer_pk
      (List.replicate 47 0) = .error .rustPanic ∧
    CryptoSym.decrypt_message ks tagF sha512 hkdf receiver_sk signer_pk
      (List.replicate 27 0) = .error .rustPanic := by
  constructor
  · unfold CryptoNis1.decrypt_message
    rw [if_neg (by decide), if_pos (by decide)]
  · unfold CryptoSym.decrypt_message
    rw [if_neg (by decide), if_pos (by decide)]

/-- **C7**: decrypting a zero-length envelope fails with the EmptyMessage
error before any cryptography runs, in both variants. -/
theorem spec_C7 (Dn : Bytes → Bytes → Bytes) (keccak512 keccak256 sha512 hkdf : Bytes → Bytes)
    (ks : Bytes → Bytes → Nat → Bytes) (tagF : Bytes → Bytes → Bytes → Bytes)
    (receiver_sk signer_pk : Bytes) :
    CryptoNis1.decrypt_message Dn keccak512 keccak256 receiver_sk signer_pk [] =
      .error .emptyMessage ∧
    CryptoSym.decrypt_message ks tagF sha512 hkdf receiver_sk signer_pk [] =
      .error .emptyMessage := by
  constructor
  · unfold CryptoNis1.decrypt_message
    rw [if_pos rfl]
  · unfold CryptoSym.decrypt_message
    rw [if_pos rfl]

/-! ## List and block lemmas for the ciphers -/

theorem xorBytes_length (a b : Bytes) : (xorBytes a b).length = min a.length b.length := by
  simp [xorBytes]

theorem xorBytes_left_cancel (a b : Bytes) (h : a.length = b.length) :
    xorBytes a (xorBytes a b) = b := by
  induction a generalizing b with
  | nil =>
    cases b with
    | nil => rfl
    | cons y ys => simp at h
  | cons x xs ih =>
    cases b with
    | nil => simp at h
    | cons y ys =>
      show (x ^^^ (x ^^^ y)) :: xorBytes xs (xorBytes xs ys) = y :: ys
      rw [Nat.xor_cancel_left, ih ys (by simpa using h)]

theorem xorBytes_right_cancel (m k : Bytes) (h : m.length = k.length) :
    xorBytes (xorBytes m k) k = m := by
  induction m generalizing k with
  | nil =>
    cases k with
    | nil => rfl
    | cons y ys => simp at h
  | cons x xs ih =>
    cases k with
    | nil => simp at h
    | cons y ys =>
      show ((x ^^^ y) ^^^ y) :: xorBytes (xorBytes xs ys) ys = x :: xs
      rw [Nat.xor_cancel_right, ih ys (by simpa using h)]

theorem take_append_of_length (a b : Bytes) (n : Nat) (h : a.length = n) :
    (a ++ b).take n = a := by
  rw [← h, List.take_left]

theorem drop_append_of_length (a b : Bytes) (n : Nat) (h : a.length = n) :
    (a ++ b).drop n = b := by
  rw [← h, List.drop_left]

theorem chunk16_append16 (b r : Bytes) (hb : b.length = 16) :
    chunk16 (b ++ r) = b :: chunk16 r := by
  rw [chunk16]
  have hne : ¬ b ++ r = [] := by
    intro hc
    have hb0 : b = [] := (List.append_eq_nil.mp hc).1
    rw [hb0] at hb
    simp at hb
  rw [dif_neg hne, take_append_of_length b r 16 hb, drop_append_of_length b r 16 hb]

theorem flatten_chunk16 (ct : Bytes) : (chunk16 ct).flatten = ct := by
  induction ct using chunk16.induct with
  | case1 => simp [chunk16]
  | case2 bs hbs ih =>
    rw [chunk16, dif_neg hbs]
    rw [List.flatten_cons, ih]
    exact List.take_append_drop 16 bs

theorem chunk16_flatten (blocks : List Bytes) (h : ∀ b ∈ blocks, b.length = 16) :
    chunk16 blocks.flatten = blocks := by
  induction blocks with
  | nil => rw [chunk16]; simp
  | cons b rest ih =>
    rw [List.flatten_cons, chunk16_append16 b _ (h b (List.mem_cons_self _ _)),
      ih (fun x hx => h x (List.mem_cons_of_mem _ hx))]

theorem chunk16_blocks_length (ct : Bytes) :
    ct.length % 16 = 0 → ∀ b ∈ chunk16 ct, b.length = 16 := by
  induction ct using chunk16.induct with
  | case1 =>
    intro _ b hb
    simp [chunk16] at hb
  | case2 bs hbs ih =>
    intro hmod b hb
    have hpos : 0 < bs.length := List.length_pos.mpr hbs
    have hge : 16 ≤ bs.length := by omega
    rw [chunk16, dif_neg hbs] at hb
    rcases List.mem_cons.mp hb with h1 | h1
    · rw [h1, List.length_take]; omega
    · exact ih (by rw [List.length_drop]; omega) b h1

theorem cbcEncryptBlocks_length (E : Bytes → Bytes) (prev : Bytes) (blocks : List Bytes) :
    (cbcEncryptBlocks E prev blocks).length = blocks.length := by
  induction blocks generalizing prev with
  | nil => rfl
  | cons b rest ih => simp [cbcEncryptBlocks, ih]

theorem cbcEncryptBlocks_valid (E : Bytes → Bytes)
    (hE : ∀ b : Bytes, b.length = 16 → (E b).length = 16)
    (prev : Bytes) (hprev : prev.length = 16) (blocks : List Bytes)
    (hblocks : ∀ b ∈ blocks, b.length = 16) :
    ∀ c ∈ cbcEncryptBlocks E prev blocks, c.length = 16 := by
  induction blocks generalizing prev with
  | nil => intro c hc; simp [cbcEncryptBlocks] at hc
  | cons b rest ih =>
    intro c hc
    have hb : b.length = 16 := hblocks b (List.mem_cons_self _ _)
    have hxor : (xorBytes prev b).length = 16 := by
      rw [xorBytes_length, hprev, hb]
      simp
    have hEb : (E (xorBytes prev b)).length = 16 := hE _ hxor
    simp only [cbcEncryptBlocks] at hc
    rcases List.mem_cons.mp hc with h1 | h1
    · rw [h1]; exact hEb
    · exact ih (E (xorBytes prev b)) hEb (fun x hx => hblocks x (List.mem_cons_of_mem _ hx)) c h1

theorem flatten_length_of_blocks (blocks : List Bytes)
    (h : ∀ b ∈ blocks, b.length = 16) : blocks.flatten.length = 16 * blocks.length := by
  induction blocks with
  | nil => simp
  | cons b rest ih =>
    rw [List.flatten_cons, List.length_append, h b (List.mem_cons_self _ _),
      ih (fun x hx => h x (List.mem_cons_of_mem _ hx)), List.length_cons]
    ring

theorem pkcs7Pad_length (msg : Bytes) :
    (pkcs7Pad msg).length = 16 * (msg.length / 16 + 1) := by
  simp only [pkcs7Pad, List.length_append, List.length_replicate]
  omega

theorem pkcs7Pad_mod (msg : Bytes) : (pkcs7Pad msg).length % 16 = 0 := by
  rw [pkcs7Pad_length]
  omega

theorem getLast_replicate (n x : Nat) (h : 1 ≤ n) :
    (List.replicate n x).getLast? = some x := by
  cases n with
  | zero => omega
  | succ k => rw [List.replicate_succ', List.getLast?_concat]

theorem pkcs7Unpad_pad (msg : Bytes) : pkcs7Unpad (pkcs7Pad msg) = .ok msg := by
  unfold pkcs7Pad pkcs7Unpad
  simp only []
  set p := 16 - msg.length % 16 with hp
  have hp1 : 1 ≤ p := by omega
  have hrep : (List.replicate p p : Bytes) ≠ [] := by
    intro hc
    have := congrArg List.length hc
    simp at this
    omega
  have hlast : (msg ++ List.replicate p p).getLast? = some p := by
    rw [List.getLast?_append_of_ne_nil _ hrep, getLast_replicate _ _ hp1]
  rw [hlast]
  dsimp only
  have hlen : (msg ++ List.replicate p p).length = msg.length + p := by
    simp
  have hnz : ¬ (p = 0 ∨ (msg ++ List.replicate p p).length < p) := by
    rw [hlen]
    omega
  rw [if_neg hnz]
  have hdroplen : (msg ++ List.replicate p p).length - p = msg.length := by
    rw [hlen]
    omega
  have hdrop : (msg ++ List.replicate p p).drop ((msg ++ List.replicate p p).length - p)
      = List.replicate p p := by
    rw [hdroplen, drop_append_of_length msg _ msg.length rfl]
  have hall : ((msg ++ List.replicate p p).drop ((msg ++ List.replicate p p).length - p)).all
      (fun x => x == p) = true := by
    rw [hdrop]
    simp [List.all_eq_true]
  rw [if_pos hall, hdroplen, take_append_of_length msg _ msg.length rfl]

theorem cbcDecryptBlocks_encryptBlocks (E Dn : Bytes → Bytes)
    (hE : ∀ b : Bytes, b.length = 16 → (E b).length = 16 ∧ Dn (E b) = b)
    (prev : Bytes) (hprev : prev.length = 16) (blocks : List Bytes)
    (hblocks : ∀ b ∈ blocks, b.length = 16) :
    cbcDecryptBlocks Dn prev (cbcEncryptBlocks E prev blocks) = blocks := by
  induction blocks generalizing prev with
  | nil => rfl
  | cons b rest ih =>
    have hb : b.length = 16 := hblocks b (List.mem_cons_self _ _)
    have hxlen : (xorBytes prev b).length = 16 := by
      rw [xorBytes_length, hprev, hb]
      simp
    obtain ⟨hElen, hDn⟩ := hE _ hxlen
    simp only [cbcEncryptBlocks, cbcDecryptBlocks]
    rw [hDn, xorBytes_left_cancel prev b (by rw [hprev, hb])]
    rw [ih _ hElen (fun x hx => hblocks x (List.mem_cons_of_mem _ hx))]

theorem cbcDecrypt_cbcEncrypt (E Dn : Bytes → Bytes)
    (hE : ∀ b : Bytes, b.length = 16 → (E b).length = 16 ∧ Dn (E b) = b)
    (iv : Bytes) (hiv : iv.length = 16) (msg : Bytes) :
    cbcDecrypt Dn iv (cbcEncrypt E iv msg) = .ok msg := by
  have hblocks : ∀ b ∈ chunk16 (pkcs7Pad msg), b.length = 16 :=
    chunk16_blocks_length _ (pkcs7Pad_mod msg)
  have hE1 : ∀ b : Bytes, b.length = 16 → (E b).length = 16 := fun b hb => (hE b hb).1
  have hencvalid : ∀ c ∈ cbcEncryptBlocks E iv (chunk16 (pkcs7Pad msg)), c.length = 16 :=
    cbcEncryptBlocks_valid E hE1 iv hiv _ hblocks
  unfold cbcEncrypt cbcDecrypt
  have hctlen := flatten_length_of_blocks _ hencvalid
  rw [if_neg (by rw [hctlen]; omega)]
  rw [chunk16_flatten _ hencvalid,
    cbcDecryptBlocks_encryptBlocks E Dn hE iv hiv _ hblocks,
    flatten_chunk16, pkcs7Unpad_pad]

theorem cbcEncrypt_length (E : Bytes → Bytes)
    (hE : ∀ b : Bytes, b.length = 16 → (E b).length = 16)
    (iv : Bytes) (hiv : iv.length = 16) (msg : Bytes) :
    (cbcEncrypt E iv msg).length = 16 * (msg.length / 16 + 1) := by
  unfold cbcEncrypt
  have hblocks : ∀ b ∈ chunk16 (pkcs7Pad msg), b.length = 16 :=
    chunk16_blocks_length _ (pkcs7Pad_mod msg)
  rw [flatten_length_of_blocks _ (cbcEncryptBlocks_valid E hE iv hiv _ hblocks),
    cbcEncryptBlocks_length]
  have h1 : (pkcs7Pad msg).length = 16 * (chunk16 (pkcs7Pad msg)).length := by
    conv_lhs => rw [← flatten_chunk16 (pkcs7Pad msg)]
    exact flatten_length_of_blocks _ hblocks
  have h2 := pkcs7Pad_length msg
  omega

/-! ## Diffie-Hellman commutativity -/

theorem dh_comm (a b : Nat) : a * (b % L) % L = b * (a % L) % L := by
  rw [← ZMod.natCast_eq_natCast_iff']
  push_cast [ZMod.natCast_mod]
  ring

theorem compress_pointMul_comm (a b : Nat) :
    compress (pointMul a (b % L)) = compress (pointMul b (a % L)) := by
  unfold compress pointMul
  rw [Nat.mod_mod_of_dvd _ (dvd_refl L), Nat.mod_mod_of_dvd _ (dvd_refl L), dh_comm]

/-- NIS1 shared-key symmetry: both parties derive the same symmetric key when
each side's public key is derived from its own private key. -/
theorem nis1_shared_key_comm (keccak512 keccak256 : Bytes → Bytes) (salt sA sB : Bytes) :
    CryptoNis1.derive_shared_key keccak512 keccak256 salt sA (derivePub keccak512 true sB) =
      CryptoNis1.derive_shared_key keccak512 keccak256 salt sB (derivePub keccak512 true sA) := by
  unfold CryptoNis1.derive_shared_key derive_shared_secret
  rw [derivePub_decompress, derivePub_decompress]
  have hA : scalar_from_sk keccak512 sA.reverse = pubScalar keccak512 true sA := rfl
  have hB : scalar_from_sk keccak512 sB.reverse = pubScalar keccak512 true sB := rfl
  simp only [hA, hB]
  rw [compress_pointMul_comm]

/-- Symbol shared-key symmetry. -/
theorem sym_shared_key_comm (sha512 hkdf : Bytes → Bytes) (sA sB : Bytes) :
    CryptoSym.derive_shared_key sha512 hkdf sA (derivePub sha512 false sB) =
      CryptoSym.derive_shared_key sha512 hkdf sB (derivePub sha512 false sA) := by
  unfold CryptoSym.derive_shared_key derive_shared_secret
  rw [derivePub_decompress, derivePub_decompress]
  have hA : scalar_from_sk sha512 sA = pubScalar sha512 false sA := rfl
  have hB : scalar_from_sk sha512 sB = pubScalar sha512 false sB := rfl
  simp only [hA, hB]
  rw [compress_pointMul_comm]

theorem split3_take (a b c : Bytes) (m : Nat) (ha : a.length = m) :
    (a ++ b ++ c).take m = a := by
  rw [List.append_assoc]
  exact take_append_of_length a _ m ha

theorem split3_mid (a b c : Bytes) (m n : Nat) (ha : a.length = m) (hb : b.length = n) :
    ((a ++ b ++ c).drop m).take n = b := by
  rw [List.append_assoc, drop_append_of_length a _ m ha]
  exact take_append_of_length b c n hb

theorem split3_drop (a b c : Bytes) (m n : Nat) (ha : a.length = m) (hb : b.length = n) :
    (a ++ b ++ c).drop (m + n) = c := by
  rw [← List.drop_drop, List.append_assoc, drop_append_of_length a _ m ha,
    drop_append_of_length b c n hb]

/-- NIS1 cipher roundtrip, sender and receiver public keys derived from the
respective private keys. -/
theorem nis1_roundtrip (E Dn : Bytes → Bytes → Bytes) (keccak512 keccak256 : Bytes → Bytes)
    (hE : ∀ key b : Bytes, b.length = 16 → (E key b).length = 16 ∧ Dn key (E key b) = b)
    (saltB ivB sB rB msgB envB : Bytes)
    (hsalt : saltB.length = 32) (hivB : ivB.length = 16)
    (hencB : CryptoNis1.encrypt_message E keccak512 keccak256 ivB saltB sB
        (derivePub keccak512 true rB) msgB = .ok envB) :
    CryptoNis1.decrypt_message Dn keccak512 keccak256 rB (derivePub keccak512 true sB) envB
      = .ok msgB := by
  set keyB := keccak256 (xorBytes
    (compress (pointMul (scalar_from_sk keccak512 sB.reverse) (pubScalar keccak512 true rB % L)))
    saltB) with hkeyB_def
  have hkeyB : CryptoNis1.derive_shared_key keccak512 keccak256 saltB sB
      (derivePub keccak512 true rB) = .ok keyB := by
    unfold CryptoNis1.derive_shared_key derive_shared_secret
    rw [derivePub_decompress]
  have henvB : envB = saltB ++ ivB ++ cbcEncrypt (E keyB) ivB msgB := by
    have h2 := hencB
    unfold CryptoNis1.encrypt_message at h2
    rw [hkeyB] at h2
    exact (Except.ok.inj h2).symm
  have hE1 : ∀ b : Bytes, b.length = 16 → (E keyB b).length = 16 := fun b hb => (hE keyB b hb).1
  have hctlen := cbcEncrypt_length (E keyB) hE1 ivB hivB msgB
  have henvlen : envB.length = 48 + 16 * (msgB.length / 16 + 1) := by
    rw [henvB]
    simp [hsalt, hivB, hctlen]
    omega
  unfold CryptoNis1.decrypt_message
  rw [if_neg (by intro hc; rw [hc] at henvlen; simp only [List.length_nil] at henvlen; omega)]
  rw [if_neg (by omega)]
  dsimp only
  rw [henvB, split3_take _ _ _ 32 hsalt, split3_mid _ _ _ 32 16 hsalt hivB,
    show (48 : Nat) = 32 + 16 by norm_num, split3_drop _ _ _ 32 16 hsalt hivB,
    nis1_shared_key_comm, hkeyB]
  dsimp only
  exact cbcDecrypt_cbcEncrypt (E keyB) (Dn keyB) (hE keyB) ivB hivB msgB

/-- Symbol cipher roundtrip, sender and receiver public keys derived from the
respective private keys. -/
theorem sym_roundtrip (ks : Bytes → Bytes → Nat → Bytes) (tagF : Bytes → Bytes → Bytes → Bytes)
    (sha512 hkdf : Bytes → Bytes)
    (hks : ∀ key iv n, (ks key iv n).length = n)
    (htag : ∀ key iv ct, (tagF key iv ct).length = 16)
    (ivA sA rA msgA envA : Bytes) (hivA : ivA.length = 12)
    (hencA : CryptoSym.encrypt_message ks tagF sha512 hkdf ivA sA
        (derivePub sha512 false rA) msgA = .ok envA) :
    CryptoSym.decrypt_message ks tagF sha512 hkdf rA (derivePub sha512 false sA) envA
      = .ok msgA := by
  set keyA := hkdf
    (compress (pointMul (scalar_from_sk sha512 sA) (pubScalar sha512 false rA % L))) with hkeyA_def
  have hkeyA : CryptoSym.derive_shared_key sha512 hkdf sA (derivePub sha512 false rA)
      = .ok keyA := by
    unfold CryptoSym.derive_shared_key derive_shared_secret
    rw [derivePub_decompress]
  set ct := xorBytes msgA (ks keyA ivA msgA.length) with hct_def
  set tg := tagF keyA ivA ct with htg_def
  have henvA : envA = tg ++ ivA ++ ct := by
    have h2 := hencA
    unfold CryptoSym.encrypt_message at h2
    rw [hkeyA] at h2
    unfold gcmEncrypt at h2
    exact (Except.ok.inj h2).symm
  have htglen : tg.length = 16 := htag _ _ _
  have hctlen : ct.length = msgA.length := by
    rw [hct_def, xorBytes_length, hks]
    simp
  have henvlen : envA.length = 28 + msgA.length := by
    rw [henvA]
    simp [htglen, hivA, hctlen]
    omega
  unfold CryptoSym.decrypt_message
  rw [if_neg (by intro hc; rw [hc] at henvlen; simp only [List.length_nil] at henvlen; omega)]
  rw [if_neg (by omega)]
  dsimp only
  rw [henvA, split3_mid _ _ _ 16 12 htglen hivA,
    show (28 : Nat) = 16 + 12 by norm_num, split3_drop _ _ _ 16 12 htglen hivA,
    split3_take _ _ _ 16 htglen, sym_shared_key_comm, hkeyA]
  unfold gcmDecrypt
  dsimp only
  have hdatalen : (ct ++ tg).length = ct.length + 16 := by
    simp [htglen]
  rw [if_neg (by omega)]
  have hsub : (ct ++ tg).length - 16 = ct.length := by omega
  rw [hsub, take_append_of_length ct tg ct.length rfl, drop_append_of_length ct tg ct.length rfl]
  rw [if_pos htg_def.symm, hctlen]
  rw [hct_def, xorBytes_right_cancel msgA (ks keyA ivA msgA.length) (by rw [hks])]

/-- **C2**: for keypairs whose public keys are derived from their private
keys, any non-empty plaintext and any choice of the random IV (and salt for
NIS1) drawn during encryption, decrypting the encrypted envelope with the
opposite key material returns the original plaintext, for both cipher
variants. -/
theorem spec_C2
    (E Dn : Bytes → Bytes → Bytes) (keccak512 keccak256 sha512 hkdf : Bytes → Bytes)
    (ks : Bytes → Bytes → Nat → Bytes) (tagF : Bytes → Bytes → Bytes → Bytes)
    (hE : ∀ key b : Bytes, b.length = 16 → (E key b).length = 16 ∧ Dn key (E key b) = b)
    (hks : ∀ key iv n, (ks key iv n).length = n)
    (htag : ∀ key iv ct, (tagF key iv ct).length = 16)
    (saltB ivB ivA sB rB sA rA msgB msgA envB envA : Bytes)
    (hsalt : saltB.length = 32) (hivB : ivB.length = 16) (hivA : ivA.length = 12)
    (hmsgB : msgB ≠ []) (hmsgA : msgA ≠ [])
    (hencB : CryptoNis1.encrypt_message E keccak512 keccak256 ivB saltB sB
        (derivePub keccak512 true rB) msgB = .ok envB)
    (hencA : CryptoSym.encrypt_message ks tagF sha512 hkdf ivA sA
        (derivePub sha512 false rA) msgA = .ok envA) :
    CryptoNis1.decrypt_message Dn keccak512 keccak256 rB (derivePub keccak512 true sB) envB
      = .ok msgB ∧
    CryptoSym.decrypt_message ks tagF sha512 hkdf rA (derivePub sha512 false sA) envA
      = .ok msgA :=
  ⟨nis1_roundtrip E Dn keccak512 keccak256 hE saltB ivB sB rB msgB envB hsalt hivB hencB,
   sym_roundtrip ks tagF sha512 hkdf hks htag ivA sA rA msgA envA hivA hencA⟩

/-- The NIS1 witness symmetric key (sender seed `[1]`, receiver seed `[2]`,
all-zero salt). -/
def keyB0 : Bytes :=
  constDigest (xorBytes
    (compress (pointMul (scalar_from_sk constDigest (List.reverse [1]))
      (pubScalar constDigest true [2] % L)))
    (List.replicate 32 0))

/-- The NIS1 witness envelope. -/
def envB0 : Bytes :=
  List.replicate 32 0 ++ List.replicate 16 0 ++ cbcEncrypt (E0 keyB0) (List.replicate 16 0) [9]

/-- The Symbol witness symmetric key (sender seed `[3]`, receiver seed `[4]`). -/
def keyA0 : Bytes :=
  constDigest (compress (pointMul (scalar_from_sk constDigest [3])
    (pubScalar constDigest false [4] % L)))

/-- The Symbol witness ciphertext and envelope. -/
def ctA0 : Bytes := xorBytes [9] (ks0 keyA0 (List.replicate 12 0) 1)

def envA0 : Bytes := tagF0 keyA0 (List.replicate 12 0) ctA0 ++ List.replicate 12 0 ++ ctA0

theorem encB0_eq : CryptoNis1.encrypt_message E0 constDigest constDigest
    (List.replicate 16 0) (List.replicate 32 0) [1] (derivePub constDigest true [2]) [9]
    = .ok envB0 := by
  unfold CryptoNis1.encrypt_message CryptoNis1.derive_shared_key derive_shared_secret
    envB0 keyB0
  rw [derivePub_decompress]

theorem encA0_eq : CryptoSym.encrypt_message ks0 tagF0 constDigest constDigest
    (List.replicate 12 0) [3] (derivePub constDigest false [4]) [9] = .ok envA0 := by
  unfold CryptoSym.encrypt_message CryptoSym.derive_shared_key derive_shared_secret
    gcmEncrypt envA0 ctA0 keyA0
  rw [derivePub_decompress]
  rfl

/-- Closed witness for C2: both ciphers roundtrip on concrete key material,
messages and randomness. -/
theorem spec_C2_witness :
    (∀ key b : Bytes, b.length = 16 → (E0 key b).length = 16 ∧ E0 key (E0 key b) = b) ∧
    (∀ key iv n, (ks0 key iv n).length = n) ∧
    (∀ key iv ct, (tagF0 key iv ct).length = 16) ∧
    (List.replicate 32 0 : Bytes).length = 32 ∧
    (List.replicate 16 0 : Bytes).length = 16 ∧
    (List.replicate 12 0 : Bytes).length = 12 ∧
    ([9] : Bytes) ≠ [] ∧
    CryptoNis1.decrypt_message E0 constDigest constDigest [2] (derivePub constDigest true [1])
      envB0 = .ok [9] ∧
    CryptoSym.decrypt_message ks0 tagF0 constDigest constDigest [4]
      (derivePub constDigest false [3]) envA0 = .ok [9] := by
  have hE : ∀ key b : Bytes, b.length = 16 → (E0 key b).length = 16 ∧ E0 key (E0 key b) = b :=
    fun _ b hb => ⟨hb, rfl⟩
  have hks : ∀ key iv n, (ks0 key iv n).length = n := fun _ _ n => by simp [ks0]
  have htag : ∀ key iv ct, (tagF0 key iv ct).length = 16 := fun _ _ _ => by simp [tagF0]
  obtain ⟨h1, h2⟩ := spec_C2 E0 E0 constDigest constDigest constDigest constDigest ks0 tagF0
    hE hks htag (List.replicate 32 0) (List.replicate 16 0) (List.replicate 12 0)
    [1] [2] [3] [4] [9] [9] envB0 envA0
    (by simp) (by simp) (by simp) (by simp) (by simp) encB0_eq encA0_eq
  exact ⟨hE, hks, htag, by simp, by simp, by simp, by simp, h1, h2⟩

/-- **C9**: every successful encryption returns exactly the documented
framing — NIS1: `salt(32) ‖ iv(16) ‖ ciphertext` with ciphertext a positive
multiple of 16 bytes (so envelope length 48 + 16k); Symbol:
`tag(16) ‖ iv(12) ‖ ciphertext` with ciphertext the plaintext length (so
envelope length 28 + plaintext length). -/
theorem spec_C9
    (E : Bytes → Bytes → Bytes) (keccak512 keccak256 sha512 hkdf : Bytes → Bytes)
    (ks : Bytes → Bytes → Nat → Bytes) (tagF : Bytes → Bytes → Bytes → Bytes)
    (hE : ∀ key b : Bytes, b.length = 16 → (E key b).length = 16)
    (hks : ∀ key iv n, (ks key iv n).length = n)
    (htag : ∀ key iv ct, (tagF key iv ct).length = 16)
    (saltB ivB ivA skB pkB skA pkA msgB msgA envB envA : Bytes)
    (hsalt : saltB.length = 32) (hivB : ivB.length = 16) (hivA : ivA.length = 12)
    (hencB : CryptoNis1.encrypt_message E keccak512 keccak256 ivB saltB skB pkB msgB
      = .ok envB)
    (hencA : CryptoSym.encrypt_message ks tagF sha512 hkdf ivA skA pkA msgA = .ok envA) :
    (∃ k ct, envB = saltB ++ ivB ++ ct ∧ ct.length = 16 * k ∧ 1 ≤ k ∧
      envB.length = 48 + 16 * k) ∧
    (∃ tg ct, envA = tg ++ ivA ++ ct ∧ tg.length = 16 ∧ ct.length = msgA.length ∧
      envA.length = 28 + msgA.length) := by
  constructor
  · unfold CryptoNis1.encrypt_message at hencB
    cases hd : CryptoNis1.derive_shared_key keccak512 keccak256 saltB skB pkB with
    | error e => rw [hd] at hencB; exact absurd hencB (by simp)
    | ok key =>
      rw [hd] at hencB
      have henv : envB = saltB ++ ivB ++ cbcEncrypt (E key) ivB msgB :=
        (Except.ok.inj hencB).symm
      have hct := cbcEncrypt_length (E key) (fun b hb => hE key b hb) ivB hivB msgB
      refine ⟨msgB.length / 16 + 1, cbcEncrypt (E key) ivB msgB, henv, hct, by omega, ?_⟩
      rw [henv]
      simp only [List.length_append, hsalt, hivB, hct]
  · unfold CryptoSym.encrypt_message at hencA
    cases hd : CryptoSym.derive_shared_key sha512 hkdf skA pkA with
    | error e => rw [hd] at hencA; exact absurd hencA (by simp)
    | ok key =>
      rw [hd] at hencA
      have henv : envA = tagF key ivA (xorBytes msgA (ks key ivA msgA.length)) ++ ivA ++
          xorBytes msgA (ks key ivA msgA.length) := (Except.ok.inj hencA).symm
      have hct : (xorBytes msgA (ks key ivA msgA.length)).length = msgA.length := by
        rw [xorBytes_length, hks]
        simp
      refine ⟨_, _, henv, htag _ _ _, hct, ?_⟩
      rw [henv]
      simp only [List.length_append, hivA, hct, htag]

/-- Closed witness for C9 on the concrete witness envelopes. -/
theorem spec_C9_witness :
    (∀ key b : Bytes, b.length = 16 → (E0 key b).length = 16) ∧
    (∀ key iv n, (ks0 key iv n).length = n) ∧
    (∀ key iv ct, (tagF0 key iv ct).length = 16) ∧
    ((∃ k ct, envB0 = List.replicate 32 0 ++ List.replicate 16 0 ++ ct ∧
        ct.length = 16 * k ∧ 1 ≤ k ∧ envB0.length = 48 + 16 * k) ∧
      (∃ tg ct, envA0 = tg ++ List.replicate 12 0 ++ ct ∧ tg.length = 16 ∧
        ct.length = ([9] : Bytes).length ∧ envA0.length = 28 + ([9] : Bytes).length)) := by
  have hE : ∀ key b : Bytes, b.length = 16 → (E0 key b).length = 16 := fun _ b hb => hb
  have hks : ∀ key iv n, (ks0 key iv n).length = n := fun _ _ n => by simp [ks0]
  have htag : ∀ key iv ct, (tagF0 key iv ct).length = 16 := fun _ _ _ => by simp [tagF0]
  exact ⟨hE, hks, htag,
    spec_C9 E0 constDigest constDigest constDigest constDigest ks0 tagF0 hE hks htag
      (List.replicate 32 0) (List.replicate 16 0) (List.replicate 12 0)
      [1] (derivePub constDigest true [2]) [3] (derivePub constDigest false [4]) [9] [9]
      envB0 envA0 (by simp) (by simp) (by simp) encB0_eq encA0_eq⟩

/-! ## Hex private-key text input (core-crypto utils.rs, from_hex_private_key) -/

/-- A hexadecimal character, as matched by the `^[a-fA-F0-9]+$` regex. -/
def isHexChar (c : Char) : Bool :=
  ('0' ≤ c && c ≤ '9') || ('a' ≤ c && c ≤ 'f') || ('A' ≤ c && c ≤ 'F')

/-- `is_hex`: the empty string is rejected, otherwise every character must
match the hex class. -/
def is_hex (s : List Char) : Bool :=
  if s = [] then false else s.all isHexChar

/-- Numeric value of a hex character. -/
def hexCharVal (c : Char) : Nat :=
  if '0' ≤ c && c ≤ '9' then c.toNat - 48
  else if 'a' ≤ c && c ≤ 'f' then c.toNat - 87
  else if 'A' ≤ c && c ≤ 'F' then c.toNat - 55
  else 0

/-- `hex::decode` on an even-length hex string. -/
def hexToBytes : List Char → Bytes
  | c1 :: c2 :: rest => (16 * hexCharVal c1 + hexCharVal c2) :: hexToBytes rest
  | _ => []

/-- Symbol `Keypair::from_hex_private_key`: hex-character check first, then
the 64-character length check, then decode and derive the public key. -/
def Sym.from_hex_private_key (sha512 : Bytes → Bytes) (hex : List Char) :
    Except CErr Keypair :=
  if ¬ is_hex hex then .error .notHex
  else if ¬ (64 = hex.length) then .error .badKeyLength
  else
    .ok { private_key := hexToBytes hex, public_key := derivePub sha512 false (hexToBytes hex) }

/-- NIS1 `Keypair::from_hex_private_key`: the same two checks, then the
NIS1 (reversed-seed Keccak) public-key derivation. -/
def Nis1.from_hex_private_key (keccak512 : Bytes → Bytes) (hex : List Char) :
    Except CErr Keypair :=
  if ¬ is_hex hex then .error .notHex
  else if ¬ (64 = hex.length) then .error .badKeyLength
  else
    .ok { private_key := hexToBytes hex, public_key := derivePub keccak512 true (hexToBytes hex) }

theorem is_hex_iff (s : List Char) : is_hex s = true ↔ s ≠ [] ∧ s.all isHexChar = true := by
  unfold is_hex
  by_cases h : s = []
  · simp [h]
  · simp [h]

/-- **C8**: `from_hex_private_key` succeeds exactly on 64-character strings
of hex characters, and any other input is rejected with an error — a non-hex
string at the hex check, a hex string of wrong length at the length check —
before any key derivation, for both variants. -/
theorem spec_C8 (sha512 keccak512 : Bytes → Bytes) (hex : List Char) :
    ((∃ kp, Sym.from_hex_private_key sha512 hex = .ok kp) ↔
      hex.length = 64 ∧ hex.all isHexChar = true) ∧
    ((∃ kp, Nis1.from_hex_private_key keccak512 hex = .ok kp) ↔
      hex.length = 64 ∧ hex.all isHexChar = true) ∧
    (is_hex hex = false →
      Sym.from_hex_private_key sha512 hex = .error .notHex ∧
      Nis1.from_hex_private_key keccak512 hex = .error .notHex) ∧
    (is_hex hex = true → hex.length ≠ 64 →
      Sym.from_hex_private_key sha512 hex = .error .badKeyLength ∧
      Nis1.from_hex_private_key keccak512 hex = .error .badKeyLength) := by
  by_cases h1 : is_hex hex = true
  · by_cases h2 : hex.length = 64
    · have hsym : Sym.from_hex_private_key sha512 hex =
          .ok { private_key := hexToBytes hex,
                public_key := derivePub sha512 false (hexToBytes hex) } := by
        unfold Sym.from_hex_private_key
        rw [if_neg (by simp [h1]), if_neg (by simp [h2])]
      have hnis : Nis1.from_hex_private_key keccak512 hex =
          .ok { private_key := hexToBytes hex,
                public_key := derivePub keccak512 true (hexToBytes hex) } := by
        unfold Nis1.from_hex_private_key
        rw [if_neg (by simp [h1]), if_neg (by simp [h2])]
      have hall : hex.all isHexChar = true := ((is_hex_iff hex).mp h1).2
      refine ⟨?_, ?_, ?_, ?_⟩
      · rw [hsym]
        exact ⟨fun _ => ⟨h2, hall⟩, fun _ => ⟨_, rfl⟩⟩
      · rw [hnis]
        exact ⟨fun _ => ⟨h2, hall⟩, fun _ => ⟨_, rfl⟩⟩
      · intro hc
        rw [h1] at hc
        exact absurd hc (by simp)
      · intro _ hc
        exact absurd h2 hc
    · have hsym : Sym.from_hex_private_key sha512 hex = .error .badKeyLength := by
        unfold Sym.from_hex_private_key
        rw [if_neg (by simp [h1]), if_pos (by omega)]
      have hnis : Nis1.from_hex_private_key keccak512 hex = .error .badKeyLength := by
        unfold Nis1.from_hex_private_key
        rw [if_neg (by simp [h1]), if_pos (by omega)]
      refine ⟨?_, ?_, ?_, fun _ _ => ⟨hsym, hnis⟩⟩
      · rw [hsym]
        exact ⟨fun h => absurd h (by simp), fun h => absurd h.1 h2⟩
      · rw [hnis]
        exact ⟨fun h => absurd h (by simp), fun h => absurd h.1 h2⟩
      · intro hc
        rw [h1] at hc
        exact absurd hc (by simp)
  · have h1f : is_hex hex = false := by simpa using h1
    have hno : ¬ (hex.length = 64 ∧ hex.all isHexChar = true) := by
      rintro ⟨hlen, hall⟩
      refine h1 ((is_hex_iff hex).mpr ⟨?_, hall⟩)
      intro hc
      rw [hc] at hlen
      simp at hlen
    have hsym : Sym.from_hex_private_key sha512 hex = .error .notHex := by
      unfold Sym.from_hex_private_key
      rw [if_pos (by simp [h1f])]
    have hnis : Nis1.from_hex_private_key keccak512 hex = .error .notHex := by
      unfold Nis1.from_hex_private_key
      rw [if_pos (by simp [h1f])]
    refine ⟨?_, ?_, fun _ => ⟨hsym, hnis⟩, fun hc _ => absurd hc h1⟩
    · rw [hsym]
      exact ⟨fun h => absurd h (by simp), fun h => absurd h hno⟩
    · rw [hnis]
      exact ⟨fun h => absurd h (by simp), fun h => absurd h hno⟩

/-- Closed witness for C8 at a concrete hex string. -/
theorem spec_C8_witness :
    ((∃ kp, Sym.from_hex_private_key constDigest (List.replicate 64 'a') = .ok kp) ↔
      (List.replicate 64 'a').length = 64 ∧ (List.replicate 64 'a').all isHexChar = true) ∧
    True := ⟨(spec_C8 constDigest constDigest (List.replicate 64 'a')).1, trivial⟩

/-! ## C10: Symbol Keypair::from_bytes -/

/-- Lowercase hex digit of a value below 16. -/
def hexDigit (n : Nat) : Char :=
  if n < 10 then Char.ofNat (48 + n) else Char.ofNat (87 + n)

/-- Lowercase hex encoding (`format "{:x}"` of a fixed-hash key). -/
def bytesToHex : Bytes → List Char
  | [] => []
  | b :: rest => hexDigit (b / 16) :: hexDigit (b % 16) :: bytesToHex rest

set_option maxRecDepth 2048 in
theorem hexCharVal_hexDigit : ∀ n < 16, hexCharVal (hexDigit n) = n := by decide

set_option maxRecDepth 2048 in
theorem isHexChar_hexDigit : ∀ n < 16, isHexChar (hexDigit n) = true := by decide

theorem hexToBytes_bytesToHex (bs : Bytes) (hv : ValidBytes bs) :
    hexToBytes (bytesToHex bs) = bs := by
  induction bs with
  | nil => rfl
  | cons b rest ih =>
    have hb : b < 256 := hv b (List.mem_cons_self _ _)
    show (16 * hexCharVal (hexDigit (b / 16)) + hexCharVal (hexDigit (b % 16)))
        :: hexToBytes (bytesToHex rest) = b :: rest
    rw [hexCharVal_hexDigit (b / 16) (by omega), hexCharVal_hexDigit (b % 16) (by omega),
      ih (fun x hx => hv x (List.mem_cons_of_mem _ hx))]
    congr 1
    omega

theorem bytesToHex_length (bs : Bytes) : (bytesToHex bs).length = 2 * bs.length := by
  induction bs with
  | nil => rfl
  | cons b rest ih =>
    show (bytesToHex rest).length + 1 + 1 = 2 * (rest.length + 1)
    omega

theorem bytesToHex_all_hex (bs : Bytes) (hv : ValidBytes bs) :
    (bytesToHex bs).all isHexChar = true := by
  induction bs with
  | nil => rfl
  | cons b rest ih =>
    have hb : b < 256 := hv b (List.mem_cons_self _ _)
    show (isHexChar (hexDigit (b / 16)) && (isHexChar (hexDigit (b % 16)) &&
      (bytesToHex rest).all isHexChar)) = true
    rw [isHexChar_hexDigit (b / 16) (by omega), isHexChar_hexDigit (b % 16) (by omega),
      ih (fun x hx => hv x (List.mem_cons_of_mem _ hx))]
    rfl

/-- Symbol `Keypair::from_bytes`: the external dalek `Keypair::from_bytes`
checks the input is 64 bytes and that the public half decompresses, then the
repository discards the supplied public key and rebuilds the keypair from the
private half alone via its lowercase-hex encoding (`From<PrivateKey>`, which
unwraps `from_hex_private_key`). -/
def Sym.from_bytes (sha512 : Bytes → Bytes) (bytes : Bytes) : Except CErr Keypair :=
  if bytes.length ≠ 64 then .error .bytesLengthError
  else
    match decompress (bytes.drop 32) with
    | none => .error .invalidPoint
    | some _ =>
      match Sym.from_hex_private_key sha512 (bytesToHex (bytes.take 32)) with
      | .ok kp => .ok kp
      | .error _ => .error .rustPanic

/-- **C10**: for every 64-byte input `sk ‖ pk` whose `pk` half is a valid
compressed point, Symbol `from_bytes` succeeds and the keypair's public key
is recomputed from `sk` — the supplied `pk` is discarded. -/
theorem spec_C10 (sha512 : Bytes → Bytes) (bytes : Bytes)
    (hlen : bytes.length = 64) (hv : ValidBytes bytes)
    (hpk : (decompress (bytes.drop 32)).isSome = true) :
    Sym.from_bytes sha512 bytes =
      .ok { private_key := bytes.take 32,
            public_key := derivePub sha512 false (bytes.take 32) } := by
  unfold Sym.from_bytes
  rw [if_neg (by omega)]
  obtain ⟨P, hP⟩ := Option.isSome_iff_exists.mp hpk
  rw [hP]
  have hsk : ValidBytes (bytes.take 32) := fun b hb => hv b (List.mem_of_mem_take hb)
  have hsklen : (bytes.take 32).length = 32 := by simp [hlen]
  have hhexlen : (bytesToHex (bytes.take 32)).length = 64 := by
    rw [bytesToHex_length, hsklen]
  have hhex : is_hex (bytesToHex (bytes.take 32)) = true := by
    rw [is_hex_iff]
    refine ⟨?_, bytesToHex_all_hex _ hsk⟩
    intro hc
    rw [hc] at hhexlen
    simp at hhexlen
  unfold Sym.from_hex_private_key
  rw [if_neg (by simp [hhex]), if_neg (by simp [hhexlen]), hexToBytes_bytesToHex _ hsk]

/-- Closed witness for C10: all-zero private half, the encoding of the
basepoint multiple `1` as public half. -/
theorem spec_C10_witness :
    (List.replicate 32 0 ++ natToBytes 32 1 : Bytes).length = 64 ∧
    ValidBytes (List.replicate 32 0 ++ natToBytes 32 1) ∧
    (decompress ((List.replicate 32 0 ++ natToBytes 32 1 : Bytes).drop 32)).isSome = true ∧
    Sym.from_bytes constDigest (List.replicate 32 0 ++ natToBytes 32 1) =
      .ok { private_key := (List.replicate 32 0 ++ natToBytes 32 1 : Bytes).take 32,
            public_key := derivePub constDigest false
              ((List.replicate 32 0 ++ natToBytes 32 1 : Bytes).take 32) } :=
  ⟨by decide, by decide, by decide,
    spec_C10 constDigest _ (by decide) (by decide) (by decide)⟩
